import Mathlib

/-!
# Verification of the CoinRoutes order-book aggregator

Shallow embedding of `src/orderbook_aggregator.py`.  Python floats (prices,
sizes, quantities, timestamps) are modelled as exact rationals `ℚ`; a price
level `[price, size]` is a pair `ℚ × ℚ`.  A Python function that can raise
`ValueError` is modelled as returning `Except String`; the `Except.error`
constructor carries only the message, no partial value, exactly as the raised
exception does.
-/

namespace OrderbookAggregator

/-- A price level `[price (float), size (float)]`. -/
abbrev Level := ℚ × ℚ

/-- Sum of the sizes of a list of levels (`sum(level.size for level in levels)`). -/
def sumSizes (levels : List Level) : ℚ :=
  (levels.map Prod.snd).sum

/-- The `for price, size in asks:` loop body of `compute_buy_cost`
(lines 73–78): carries `(total_cost, remaining)` through the levels and
stops as soon as `remaining <= 0`. -/
def buyLoop : List Level → ℚ → ℚ → ℚ × ℚ
  | [], total_cost, remaining => (total_cost, remaining)
  | (price, size) :: rest, total_cost, remaining =>
    let available := min size remaining
    let total_cost := total_cost + available * price
    let remaining := remaining - available
    if remaining ≤ 0 then (total_cost, remaining) else buyLoop rest total_cost remaining

/-- `compute_buy_cost(asks, qty)` (lines 69–82): walk the asks, raising
`ValueError` when `remaining > 0` survives the loop. -/
def compute_buy_cost (asks : List Level) (qty : ℚ) : Except String ℚ :=
  let res := buyLoop asks 0 qty
  if res.2 > 0 then .error "Insufficient liquidity to buy the requested quantity."
  else .ok res.1

/-- The `for price, size in bids:` loop body of `compute_sell_revenue`
(lines 89–94), duplicated in the source per direction. -/
def sellLoop : List Level → ℚ → ℚ → ℚ × ℚ
  | [], total_revenue, remaining => (total_revenue, remaining)
  | (price, size) :: rest, total_revenue, remaining =>
    let available := min size remaining
    let total_revenue := total_revenue + available * price
    let remaining := remaining - available
    if remaining ≤ 0 then (total_revenue, remaining) else sellLoop rest total_revenue remaining

/-- `compute_sell_revenue(bids, qty)` (lines 85–98). -/
def compute_sell_revenue (bids : List Level) (qty : ℚ) : Except String ℚ :=
  let res := sellLoop bids 0 qty
  if res.2 > 0 then .error "Insufficient liquidity to sell the requested quantity."
  else .ok res.1

/-- The two per-direction loops of the source are the same computation. -/
lemma sellLoop_eq_buyLoop : ∀ (levels : List Level) (t r : ℚ),
    sellLoop levels t r = buyLoop levels t r := by
  intro levels
  induction levels with
  | nil => intro t r; rfl
  | cons l rest ih =>
    intro t r
    obtain ⟨price, size⟩ := l
    simp only [sellLoop, buyLoop]
    split
    · rfl
    · exact ih _ _

/-- After the loop, `remaining` is positive iff the levels cannot cover the
requested quantity: provided every size is nonnegative and the incoming
`remaining` is positive. -/
lemma buyLoop_snd_pos_iff : ∀ (levels : List Level) (t r : ℚ),
    (∀ l ∈ levels, 0 ≤ l.2) → 0 < r →
    (0 < (buyLoop levels t r).2 ↔ sumSizes levels < r)
  | [], t, r, _, hr => by
    simp [buyLoop, sumSizes, hr]
  | (price, size) :: rest, t, r, hp, hr => by
    have hsize : 0 ≤ size := hp (price, size) (List.mem_cons_self _ _)
    have hrest : ∀ l ∈ rest, 0 ≤ l.2 := fun l hl => hp l (List.mem_cons_of_mem _ hl)
    have hsum : 0 ≤ sumSizes rest := by
      have : ∀ x ∈ rest.map Prod.snd, 0 ≤ x := by
        intro x hx
        obtain ⟨l, hl, hlx⟩ := List.mem_map.mp hx
        exact hlx ▸ hrest l hl
      exact List.sum_nonneg this
    simp only [buyLoop]
    by_cases hle : r ≤ size
    · have havail : min size r = r := min_eq_right hle
      rw [havail]
      simp only [sub_self, le_refl, if_pos]
      constructor
      · intro h; exact absurd h (lt_irrefl 0)
      · intro h
        exfalso
        have : r ≤ sumSizes ((price, size) :: rest) := by
          have : sumSizes ((price, size) :: rest) = size + sumSizes rest := by
            simp [sumSizes]
          rw [this]
          linarith
        linarith
    · push_neg at hle
      have havail : min size r = size := min_eq_left hle.le
      rw [havail]
      have hpos : 0 < r - size := by linarith
      rw [if_neg (by linarith)]
      rw [buyLoop_snd_pos_iff rest _ _ hrest hpos]
      have : sumSizes ((price, size) :: rest) = size + sumSizes rest := by
        simp [sumSizes]
      rw [this]
      constructor <;> intro h <;> linarith

/-- The loop never drives `remaining` negative when it starts nonnegative. -/
lemma buyLoop_snd_nonneg : ∀ (levels : List Level) (t r : ℚ), 0 ≤ r →
    0 ≤ (buyLoop levels t r).2
  | [], t, r, hr => hr
  | (price, size) :: rest, t, r, hr => by
    simp only [buyLoop]
    have havail : min size r ≤ r := min_le_right _ _
    split
    · simp only []
      linarith
    · exact buyLoop_snd_nonneg rest _ _ (by linarith)

/-- Unfolding equation for `compute_buy_cost`. -/
lemma compute_buy_cost_def (asks : List Level) (qty : ℚ) :
    compute_buy_cost asks qty =
      if (buyLoop asks 0 qty).2 > 0
      then .error "Insufficient liquidity to buy the requested quantity."
      else .ok (buyLoop asks 0 qty).1 := rfl

/-- Unfolding equation for `compute_sell_revenue`. -/
lemma compute_sell_revenue_def (bids : List Level) (qty : ℚ) :
    compute_sell_revenue bids qty =
      if (sellLoop bids 0 qty).2 > 0
      then .error "Insufficient liquidity to sell the requested quantity."
      else .ok (sellLoop bids 0 qty).1 := rfl

/-- Modelled from the spec (§4.3 Algorithm): "maintain `remaining = qty`,
`total = 0`. For each level in order: `taken = min(level.size, remaining)`;
`total += taken * level.price`; `remaining -= taken`; stop as soon as
`remaining <= 0`."  Stated as a recursion returning the accumulated total. -/
def greedyTotal : List Level → ℚ → ℚ
  | [], _ => 0
  | (price, size) :: rest, remaining =>
    let taken := min size remaining
    if remaining - taken ≤ 0 then taken * price
    else taken * price + greedyTotal rest (remaining - taken)

/-- The total accumulated by the source loop is the greedy total of the spec. -/
lemma buyLoop_fst_eq : ∀ (levels : List Level) (t r : ℚ),
    (buyLoop levels t r).1 = t + greedyTotal levels r
  | [], t, r => by simp [buyLoop, greedyTotal]
  | (price, size) :: rest, t, r => by
    simp only [buyLoop, greedyTotal]
    by_cases h : r - min size r ≤ 0
    · rw [if_pos h, if_pos h]
    · rw [if_neg h, if_neg h, buyLoop_fst_eq rest _ _]
      ring

/-- With a nonnegative-size level in front, walking quantity `0` stops at the
first level with nothing taken. -/
lemma buyLoop_zero (levels : List Level) (hsz : ∀ l ∈ levels, 0 ≤ l.2) :
    buyLoop levels 0 0 = (0, 0) := by
  cases levels with
  | nil => rfl
  | cons l rest =>
    obtain ⟨price, size⟩ := l
    have hs : 0 ≤ size := hsz (price, size) (List.mem_cons_self _ _)
    simp only [buyLoop, min_eq_right hs, sub_zero, le_refl, if_pos]
    norm_num

/-- **C1.** For levels with sizes `≥ 0` and `qty > 0`, the walk
(`compute_buy_cost` / `compute_sell_revenue`) fails with the
insufficient-liquidity `ValueError` if and only if the total available size is
strictly below `qty`; the `Except.error` result carries only the message, no
partial-fill value. -/
theorem walk_insufficient_liquidity_iff (levels : List Level) (qty : ℚ)
    (hsz : ∀ l ∈ levels, 0 ≤ l.2) (hq : 0 < qty) :
    ((∃ msg, compute_buy_cost levels qty = .error msg) ↔ sumSizes levels < qty) ∧
    ((∃ msg, compute_sell_revenue levels qty = .error msg) ↔ sumSizes levels < qty) := by
  have hiff := buyLoop_snd_pos_iff levels 0 qty hsz hq
  constructor
  · rw [compute_buy_cost_def]
    split
    case isTrue h =>
      exact iff_of_true ⟨_, rfl⟩ (hiff.mp h)
    case isFalse h =>
      simp only [reduceCtorEq, exists_false]
      exact iff_of_false (fun hf => hf) (fun hlt => h (hiff.mpr hlt))
  · rw [compute_sell_revenue_def, sellLoop_eq_buyLoop]
    split
    case isTrue h =>
      exact iff_of_true ⟨_, rfl⟩ (hiff.mp h)
    case isFalse h =>
      simp only [reduceCtorEq, exists_false]
      exact iff_of_false (fun hf => hf) (fun hlt => h (hiff.mpr hlt))

/-- Witness for `walk_insufficient_liquidity_iff`: asks `[[100,1]]`, `qty = 2`
(total size `1 < 2`) make both walks fail. -/
theorem walk_insufficient_liquidity_iff_witness :
    (∃ msg, compute_buy_cost [((100 : ℚ), (1 : ℚ))] 2 = .error msg) ∧
    (∃ msg, compute_sell_revenue [((100 : ℚ), (1 : ℚ))] 2 = .error msg) := by
  have h := walk_insufficient_liquidity_iff [((100 : ℚ), (1 : ℚ))] 2
    (by intro l hl; rw [List.mem_singleton] at hl; rw [hl]; norm_num) (by norm_num)
  have hsum : sumSizes [((100 : ℚ), (1 : ℚ))] < 2 := by norm_num [sumSizes]
  exact ⟨h.1.mpr hsum, h.2.mpr hsum⟩

/-- **C5.** For nonnegative-size levels and a fillable `qty > 0`,
`compute_buy_cost` succeeds with exactly the greedy total described by the
spec; in particular asks `[[100,1],[101,2]]` with `qty = 2` cost `201`. -/
theorem walk_returns_greedy_total (levels : List Level) (qty : ℚ)
    (hsz : ∀ l ∈ levels, 0 ≤ l.2) (hq : 0 < qty) (hfill : qty ≤ sumSizes levels) :
    compute_buy_cost levels qty = .ok (greedyTotal levels qty) ∧
    compute_buy_cost [((100 : ℚ), (1 : ℚ)), (101, 2)] 2 = .ok 201 := by
  constructor
  · have hiff := buyLoop_snd_pos_iff levels 0 qty hsz hq
    rw [compute_buy_cost_def, if_neg (fun hpos => absurd (hiff.mp hpos) (not_lt.mpr hfill)),
      buyLoop_fst_eq, zero_add]
  · rw [compute_buy_cost_def]
    norm_num [buyLoop]

/-- Witness for `walk_returns_greedy_total` at asks `[[100,1],[101,2]]`,
`qty = 2`. -/
theorem walk_returns_greedy_total_witness :
    compute_buy_cost [((100 : ℚ), (1 : ℚ)), (101, 2)] 2 =
      .ok (greedyTotal [((100 : ℚ), (1 : ℚ)), (101, 2)] 2) :=
  (walk_returns_greedy_total [((100 : ℚ), (1 : ℚ)), (101, 2)] 2
    (by intro l hl; rcases List.mem_cons.mp hl with h | h <;>
      [skip; rw [List.mem_singleton] at h] <;> rw [h] <;> norm_num)
    (by norm_num) (by norm_num [sumSizes])).1

/-- **C9.** For `qty = 0` (outside the spec's `qty > 0` precondition) both
walks return `0.0` without raising, for every level list with nonnegative
sizes, including the empty list. -/
theorem walk_zero_qty (levels : List Level) (hsz : ∀ l ∈ levels, 0 ≤ l.2) :
    compute_buy_cost levels 0 = .ok 0 ∧ compute_sell_revenue levels 0 = .ok 0 := by
  have h := buyLoop_zero levels hsz
  rw [compute_buy_cost_def, compute_sell_revenue_def, sellLoop_eq_buyLoop, h]
  norm_num

/-- Witness for `walk_zero_qty` at asks `[[100,1]]` and at the empty list. -/
theorem walk_zero_qty_witness :
    compute_buy_cost [((100 : ℚ), (1 : ℚ))] 0 = .ok 0 ∧
    compute_sell_revenue ([] : List Level) 0 = .ok 0 :=
  ⟨(walk_zero_qty [((100 : ℚ), (1 : ℚ))]
      (by intro l hl; rw [List.mem_singleton] at hl; rw [hl]; norm_num)).1,
   (walk_zero_qty ([] : List Level) (by intro l hl; exact absurd hl (List.not_mem_nil l))).2⟩

/-- With positive prices and nonnegative sizes, the loop only ever adds to the
accumulated total. -/
lemma buyLoop_fst_ge : ∀ (levels : List Level) (t r : ℚ),
    (∀ l ∈ levels, 0 < l.1 ∧ 0 ≤ l.2) → 0 ≤ r →
    t ≤ (buyLoop levels t r).1
  | [], t, r, _, _ => le_refl t
  | (price, size) :: rest, t, r, hp, hr => by
    have hpr := hp (price, size) (List.mem_cons_self _ _)
    have havail : 0 ≤ min size r := le_min hpr.2 hr
    have havail_le : min size r ≤ r := min_le_right _ _
    have hmul : 0 ≤ min size r * price := mul_nonneg havail hpr.1.le
    simp only [buyLoop]
    split
    · simp only []
      linarith
    · have := buyLoop_fst_ge rest (t + min size r * price) (r - min size r)
        (fun l hl => hp l (List.mem_cons_of_mem _ hl)) (by linarith)
      linarith

/-- Monotonicity of the loop's accumulated total in both the incoming total
and the requested quantity. -/
lemma buyLoop_fst_mono : ∀ (levels : List Level) (t₁ t₂ q₁ q₂ : ℚ),
    (∀ l ∈ levels, 0 < l.1 ∧ 0 ≤ l.2) → t₁ ≤ t₂ → 0 ≤ q₁ → q₁ ≤ q₂ →
    (buyLoop levels t₁ q₁).1 ≤ (buyLoop levels t₂ q₂).1
  | [], t₁, t₂, q₁, q₂, _, ht, _, _ => ht
  | (price, size) :: rest, t₁, t₂, q₁, q₂, hp, ht, hq₁, hq₁₂ => by
    have hpr := hp (price, size) (List.mem_cons_self _ _)
    have hrest : ∀ l ∈ rest, 0 < l.1 ∧ 0 ≤ l.2 :=
      fun l hl => hp l (List.mem_cons_of_mem _ hl)
    have ha₁₂ : min size q₁ ≤ min size q₂ := min_le_min le_rfl hq₁₂
    have ha₁ : min size q₁ ≤ q₁ := min_le_right _ _
    have hmul : min size q₁ * price ≤ min size q₂ * price :=
      mul_le_mul_of_nonneg_right ha₁₂ hpr.1.le
    have hr₁₂ : q₁ - min size q₁ ≤ q₂ - min size q₂ := by
      rcases le_total size q₁ with hs | hs
      · rw [min_eq_left hs, min_eq_left (hs.trans hq₁₂)]
        linarith
      · rw [min_eq_right hs]
        have : min size q₂ ≤ q₂ := min_le_right _ _
        linarith
    simp only [buyLoop]
    by_cases h₁ : q₁ - min size q₁ ≤ 0
    · rw [if_pos h₁]
      by_cases h₂ : q₂ - min size q₂ ≤ 0
      · rw [if_pos h₂]
        simp only []
        linarith
      · rw [if_neg h₂]
        have := buyLoop_fst_ge rest (t₂ + min size q₂ * price) (q₂ - min size q₂)
          hrest (by linarith)
        simp only []
        linarith
    · have h₂ : ¬ q₂ - min size q₂ ≤ 0 := fun h => h₁ (by linarith)
      rw [if_neg h₁, if_neg h₂]
      exact buyLoop_fst_mono rest _ _ _ _ hrest (by linarith) (by linarith) hr₁₂

/-- **C6.** For a fixed level list with positive prices and nonnegative sizes
and quantities `0 < q₁ ≤ q₂` both at most the total available size, the walk
succeeds on both and the total for `q₂` is at least the total for `q₁` (both
for the buy and the sell direction, which return the same totals). -/
theorem walk_total_monotone (levels : List Level) (q₁ q₂ : ℚ)
    (hl : ∀ l ∈ levels, 0 < l.1 ∧ 0 ≤ l.2)
    (hq₁ : 0 < q₁) (hq₁₂ : q₁ ≤ q₂) (hfill : q₂ ≤ sumSizes levels) :
    ∃ t₁ t₂, compute_buy_cost levels q₁ = .ok t₁ ∧
      compute_buy_cost levels q₂ = .ok t₂ ∧ t₁ ≤ t₂ ∧
      compute_sell_revenue levels q₁ = .ok t₁ ∧
      compute_sell_revenue levels q₂ = .ok t₂ := by
  have hsz : ∀ l ∈ levels, 0 ≤ l.2 := fun l hl' => (hl l hl').2
  have hq₂ : 0 < q₂ := lt_of_lt_of_le hq₁ hq₁₂
  have h₁ : ¬ (buyLoop levels 0 q₁).2 > 0 := fun hp =>
    absurd ((buyLoop_snd_pos_iff levels 0 q₁ hsz hq₁).mp hp) (by linarith)
  have h₂ : ¬ (buyLoop levels 0 q₂).2 > 0 := fun hp =>
    absurd ((buyLoop_snd_pos_iff levels 0 q₂ hsz hq₂).mp hp) (by linarith)
  refine ⟨(buyLoop levels 0 q₁).1, (buyLoop levels 0 q₂).1, ?_, ?_, ?_, ?_, ?_⟩
  · rw [compute_buy_cost_def, if_neg h₁]
  · rw [compute_buy_cost_def, if_neg h₂]
  · exact buyLoop_fst_mono levels 0 0 q₁ q₂ hl le_rfl hq₁.le hq₁₂
  · rw [compute_sell_revenue_def, sellLoop_eq_buyLoop, if_neg h₁]
  · rw [compute_sell_revenue_def, sellLoop_eq_buyLoop, if_neg h₂]

/-- Witness for `walk_total_monotone`: asks `[[100,1],[101,2]]`, `q₁ = 1`,
`q₂ = 2`. -/
theorem walk_total_monotone_witness :
    ∃ t₁ t₂, compute_buy_cost [((100 : ℚ), (1 : ℚ)), (101, 2)] 1 = .ok t₁ ∧
      compute_buy_cost [((100 : ℚ), (1 : ℚ)), (101, 2)] 2 = .ok t₂ ∧ t₁ ≤ t₂ ∧
      compute_sell_revenue [((100 : ℚ), (1 : ℚ)), (101, 2)] 1 = .ok t₁ ∧
      compute_sell_revenue [((100 : ℚ), (1 : ℚ)), (101, 2)] 2 = .ok t₂ :=
  walk_total_monotone [((100 : ℚ), (1 : ℚ)), (101, 2)] 1 2
    (by intro l hl; rcases List.mem_cons.mp hl with h | h <;>
      [skip; rw [List.mem_singleton] at h] <;> rw [h] <;> norm_num)
    (by norm_num) (by norm_num) (by norm_num [sumSizes])

/-- **C8.** `compute_buy_cost` and `compute_sell_revenue` are the same walk
computation: on every level list and quantity they return equal totals and
fail under exactly the same condition (only the exception messages differ). -/
theorem buy_sell_same_walk (levels : List Level) (qty : ℚ) :
    (compute_buy_cost levels qty).toOption = (compute_sell_revenue levels qty).toOption ∧
    ((∃ msg, compute_buy_cost levels qty = .error msg) ↔
      (∃ msg, compute_sell_revenue levels qty = .error msg)) := by
  rw [compute_buy_cost_def, compute_sell_revenue_def, sellLoop_eq_buyLoop]
  constructor
  · split <;> rfl
  · split
    · exact ⟨fun _ => ⟨_, rfl⟩, fun _ => ⟨_, rfl⟩⟩
    · simp only [reduceCtorEq, exists_false]

/-- Python's `sorted(l, key=k)`: a stable ascending sort by the key `k`.
Modelled by insertion sort, which is stable; any two stable sorts by a total
key order are extensionally equal, so this is faithful to Timsort. -/
def sortedByKey (k : Level → ℚ) (l : List Level) : List Level :=
  List.insertionSort (fun a b => k a ≤ k b) l

/-- `aggregate_orderbooks(bid_lists, ask_lists)` (lines 63–66): flatten each
side, sort bids by key `-x[0]` and asks by key `x[0]`. -/
def aggregate_orderbooks (bid_lists ask_lists : List (List Level)) :
    List Level × List Level :=
  (sortedByKey (fun x => -x.1) bid_lists.flatten,
   sortedByKey (fun x => x.1) ask_lists.flatten)

/-- The sort produces a list sorted by the key. -/
lemma sortedByKey_sorted (k : Level → ℚ) (l : List Level) :
    (sortedByKey k l).Sorted (fun a b => k a ≤ k b) := by
  haveI : IsTotal Level (fun a b => k a ≤ k b) := ⟨fun a b => le_total (k a) (k b)⟩
  haveI : IsTrans Level (fun a b => k a ≤ k b) := ⟨fun _ _ _ hab hbc => le_trans hab hbc⟩
  exact List.sorted_insertionSort _ l

/-- The sort is a permutation of its input. -/
lemma sortedByKey_perm (k : Level → ℚ) (l : List Level) :
    (sortedByKey k l).Perm l :=
  List.perm_insertionSort _ l

/-- Filtering by one key value commutes with `orderedInsert`: the inserted
element lands in front of the kept elements exactly when its key matches,
because every element it jumps over has a strictly smaller key. -/
lemma filter_orderedInsert (k : Level → ℚ) (q : ℚ) (a : Level) :
    ∀ l : List Level,
    (List.orderedInsert (fun x y => k x ≤ k y) a l).filter (fun x => decide (k x = q)) =
      if k a = q then a :: l.filter (fun x => decide (k x = q))
      else l.filter (fun x => decide (k x = q))
  | [] => by
    simp only [List.orderedInsert]
    by_cases h : k a = q <;> simp [List.filter, h]
  | b :: l => by
    simp only [List.orderedInsert]
    by_cases hab : k a ≤ k b
    · rw [if_pos hab]
      by_cases haq : k a = q <;> simp [List.filter_cons, haq]
    · rw [if_neg hab]
      push_neg at hab
      by_cases haq : k a = q
      · have hbq : ¬ (k b = q) := fun hb => absurd (hb.trans haq.symm) (ne_of_lt hab)
        simp [List.filter_cons, haq, hbq, filter_orderedInsert k q a l]
      · simp [List.filter_cons, haq, filter_orderedInsert k q a l]

/-- Stability of the sort: the subsequence of elements whose key equals any
fixed value is unchanged by sorting. -/
lemma filter_insertionSort (k : Level → ℚ) (q : ℚ) :
    ∀ l : List Level,
    (List.insertionSort (fun x y => k x ≤ k y) l).filter (fun x => decide (k x = q)) =
      l.filter (fun x => decide (k x = q))
  | [] => rfl
  | a :: l => by
    simp only [List.insertionSort]
    rw [filter_orderedInsert, filter_insertionSort k q l, List.filter_cons]
    by_cases h : k a = q <;> simp [h]

/-- **C2.** `aggregate_orderbooks` returns bids sorted non-increasing and asks
sorted non-decreasing by price, and each output side is, as a multiset,
exactly the concatenation of the corresponding input lists (no level dropped
or duplicated). -/
theorem aggregate_sorted_and_perm (bid_lists ask_lists : List (List Level)) :
    (aggregate_orderbooks bid_lists ask_lists).1.Sorted (fun a b => b.1 ≤ a.1) ∧
    (aggregate_orderbooks bid_lists ask_lists).2.Sorted (fun a b => a.1 ≤ b.1) ∧
    ((aggregate_orderbooks bid_lists ask_lists).1 : Multiset Level) =
      (bid_lists.flatten : Multiset Level) ∧
    ((aggregate_orderbooks bid_lists ask_lists).2 : Multiset Level) =
      (ask_lists.flatten : Multiset Level) := by
  refine ⟨?_, ?_, ?_, ?_⟩
  · have h := sortedByKey_sorted (fun x => -x.1) bid_lists.flatten
    exact h.imp (fun hab => by simpa using hab)
  · exact sortedByKey_sorted (fun x => x.1) ask_lists.flatten
  · exact Multiset.coe_eq_coe.mpr (sortedByKey_perm _ _)
  · exact Multiset.coe_eq_coe.mpr (sortedByKey_perm _ _)

/-- **C7.** `aggregate_orderbooks` keeps equal-price levels as separate
entries and, at every price `p`, the subsequence of output entries priced `p`
equals the subsequence of the flattened input priced `p`: the sort is stable
with respect to input concatenation order. -/
theorem aggregate_stable_equal_prices (bid_lists ask_lists : List (List Level)) (p : ℚ) :
    (aggregate_orderbooks bid_lists ask_lists).1.filter (fun x => decide (x.1 = p)) =
      bid_lists.flatten.filter (fun x => decide (x.1 = p)) ∧
    (aggregate_orderbooks bid_lists ask_lists).2.filter (fun x => decide (x.1 = p)) =
      ask_lists.flatten.filter (fun x => decide (x.1 = p)) := by
  have hpred : ∀ l : List Level,
      l.filter (fun x => decide (-x.1 = -p)) = l.filter (fun x => decide (x.1 = p)) := by
    intro l
    apply List.filter_congr
    intro x _
    simp [neg_inj]
  constructor
  · have h := filter_insertionSort (fun x => -x.1) (-p) bid_lists.flatten
    simp only [aggregate_orderbooks, sortedByKey]
    rw [← hpred (List.insertionSort _ bid_lists.flatten), ← hpred bid_lists.flatten]
    exact h
  · have h := filter_insertionSort (fun x => x.1) p ask_lists.flatten
    simp only [aggregate_orderbooks, sortedByKey]
    exact h

/-- The mutable closure `state = {"t": 0.0, "result": None}` of `rate_limiter`
(lines 10–13): timestamp of the last completed fetch and the cached result. -/
structure CacheState (V : Type) where
  t : ℚ
  result : Option V

/-- The initial closure state: `t = 0.0`, `result = None`. -/
def initState (V : Type) : CacheState V := ⟨0, none⟩

/-- One single-threaded call of `wrapper` (lines 17–31) at time `now`.
`fetchOutcome` describes what the wrapped `func` would do on this call: a
returned value or a raised exception; it is consumed only if the wrapper
actually invokes `func`.  Returns the call's outcome, the new closure state
and whether `func` was invoked.  If the cache is fresh
(`now - state["t"] < min_interval and state["result"] is not None`) the
cached result is returned and `func` is not invoked; otherwise `func` runs:
on success the cache is overwritten with `(now, result)`, on an exception the
update block is never reached and the state is untouched. -/
def wrapperCall {V E : Type} (min_interval now : ℚ) (fetchOutcome : Except E V)
    (s : CacheState V) : Except E V × CacheState V × Bool :=
  if h : now - s.t < min_interval ∧ s.result.isSome then
    (.ok (s.result.get h.2), s, false)
  else
    match fetchOutcome with
    | .ok v => (.ok v, ⟨now, some v⟩, true)
    | .error e => (.error e, s, true)

/-- A cache hit: fresh timestamp and a stored value. -/
lemma wrapperCall_hit {V E : Type} (min_interval now : ℚ) (f : Except E V)
    (st : ℚ) (v : V) (hlt : now - st < min_interval) :
    wrapperCall min_interval now f ⟨st, some v⟩ = (.ok v, ⟨st, some v⟩, false) := by
  unfold wrapperCall
  rw [dif_pos ⟨hlt, rfl⟩]
  rfl

/-- A cache miss with a successful fetch: the cache is overwritten. -/
lemma wrapperCall_miss_ok {V E : Type} (min_interval now : ℚ) (v : V)
    (s : CacheState V)
    (hmiss : ¬ (now - s.t < min_interval ∧ s.result.isSome)) :
    wrapperCall min_interval now (Except.ok v : Except E V) s =
      (.ok v, ⟨now, some v⟩, true) := by
  unfold wrapperCall
  rw [dif_neg hmiss]

/-- A cache miss with a failing fetch: the exception propagates and the
update block is never reached. -/
lemma wrapperCall_miss_error {V E : Type} (min_interval now : ℚ) (e : E)
    (s : CacheState V)
    (hmiss : ¬ (now - s.t < min_interval ∧ s.result.isSome)) :
    wrapperCall min_interval now (Except.error e) s = (.error e, s, true) := by
  unfold wrapperCall
  rw [dif_neg hmiss]

/-- If a call invoked the wrapped function, the cache-hit branch was not
taken. -/
lemma miss_of_invoked {V E : Type} (min_interval now : ℚ) (f : Except E V)
    (s : CacheState V)
    (hinv : (wrapperCall min_interval now f s).2.2 = true) :
    ¬ (now - s.t < min_interval ∧ s.result.isSome) := by
  intro hc
  unfold wrapperCall at hinv
  rw [dif_pos hc] at hinv
  simp at hinv

/-- A single-threaded sequence of `wrapper` calls: each trace element gives
the call time and the behaviour the wrapped `func` would have on that call.
Returns the list of per-call (outcome, invoked) pairs and the final state. -/
def runCalls {V E : Type} (min_interval : ℚ) :
    List (ℚ × Except E V) → CacheState V → List (Except E V × Bool) × CacheState V
  | [], s => ([], s)
  | (now, f) :: rest, s =>
    let step := wrapperCall min_interval now f s
    let next := runCalls min_interval rest step.2.1
    ((step.1, step.2.2) :: next.1, next.2)

/-- **C3 (counterexample).** The claim as stated fails on the code: a call can
succeed by serving the cache without refreshing the timestamp, and a second
call less than `min_interval` after *that call* may still invoke the fetch
and return a different value.  Concretely with `min_interval = 2`: a fetch
succeeds at `t = 100` caching `1`; a call at `t = 101` succeeds (cache hit,
returns `1`, timestamp stays `100`); a call at `t = 102` — only `1 < 2` after
the succeeding call — nevertheless invokes the fetch and returns the new
value `2`. -/
theorem rate_limiter_second_call_counterexample :
    (@wrapperCall ℚ Unit 2 100 (.ok 1) (initState ℚ)).2.1 = ⟨100, some 1⟩ ∧
    (@wrapperCall ℚ Unit 2 101 (.error ()) ⟨100, some 1⟩) = (.ok 1, ⟨100, some 1⟩, false) ∧
    ((102 : ℚ) - 101 < 2) ∧
    (@wrapperCall ℚ Unit 2 102 (.ok 2) ⟨100, some 1⟩).2.2 = true ∧
    (@wrapperCall ℚ Unit 2 102 (.ok 2) ⟨100, some 1⟩).1 = .ok 2 := by
  have hmiss₀ : ¬ ((100 : ℚ) - (initState ℚ).t < 2 ∧ (initState ℚ).result.isSome) := by
    simp [initState]
  have hmiss₂ : ¬ ((102 : ℚ) - (⟨100, some 1⟩ : CacheState ℚ).t < 2 ∧
      (⟨100, some 1⟩ : CacheState ℚ).result.isSome) := by
    intro hc
    norm_num at hc
  refine ⟨?_, ?_, by norm_num, ?_, ?_⟩
  · rw [wrapperCall_miss_ok _ _ _ _ hmiss₀]
  · exact wrapperCall_hit _ _ _ _ _ (by norm_num)
  · rw [wrapperCall_miss_ok _ _ _ _ hmiss₂]
  · rw [wrapperCall_miss_ok _ _ _ _ hmiss₂]

/-- **C3 (amended).** If a call performs a *successful update* (it invokes the
underlying fetch and the fetch succeeds), then any second call made less than
`min_interval` after it returns the identical cached value without invoking
the fetch; and a call made once `min_interval` has elapsed since the
timestamp of the last successful update invokes the fetch (exactly once: the
wrapper invokes `func` at most once per call). -/
theorem rate_limiter_cache_window {V E : Type} (min_interval t₁ t₂ : ℚ)
    (f₁ f₂ : Except E V) (v : V) (s₀ : CacheState V)
    (hinv : (wrapperCall min_interval t₁ f₁ s₀).2.2 = true)
    (hok : f₁ = .ok v)
    (hlt : t₂ - t₁ < min_interval) :
    wrapperCall min_interval t₂ f₂ (wrapperCall min_interval t₁ f₁ s₀).2.1 =
      (.ok v, (wrapperCall min_interval t₁ f₁ s₀).2.1, false) ∧
    (∀ (s : CacheState V) (f : Except E V), min_interval ≤ t₂ - s.t →
      (wrapperCall min_interval t₂ f s).2.2 = true) := by
  have hmiss := miss_of_invoked _ _ _ _ hinv
  have hstate : (wrapperCall min_interval t₁ f₁ s₀).2.1 = ⟨t₁, some v⟩ := by
    rw [hok, wrapperCall_miss_ok _ _ _ _ hmiss]
  constructor
  · rw [hstate]
    exact wrapperCall_hit _ _ _ _ _ hlt
  · intro s f hle
    have hmiss' : ¬ (t₂ - s.t < min_interval ∧ s.result.isSome) :=
      fun hc => absurd hc.1 (not_lt.mpr hle)
    cases f with
    | ok w => rw [wrapperCall_miss_ok _ _ _ _ hmiss']
    | error e => rw [wrapperCall_miss_error _ _ _ _ hmiss']

/-- Witness for `rate_limiter_cache_window`: `min_interval = 2`, a successful
fetch of `1` at `t = 100` from the initial state, a second call at
`t = 101`. -/
theorem rate_limiter_cache_window_witness :
    wrapperCall 2 101 (.error ())
        (@wrapperCall ℚ Unit 2 100 (.ok 1) (initState ℚ)).2.1 =
      (.ok 1, (@wrapperCall ℚ Unit 2 100 (.ok 1) (initState ℚ)).2.1, false) ∧
    (∀ (s : CacheState ℚ) (f : Except Unit ℚ), (2 : ℚ) ≤ 101 - s.t →
      (wrapperCall 2 101 f s).2.2 = true) :=
  rate_limiter_cache_window 2 100 101 (.ok 1) (.error ()) 1 (initState ℚ)
    (by rw [wrapperCall_miss_ok 2 100 (1 : ℚ) (initState ℚ) (by simp [initState])])
    rfl (by norm_num)

/-- **C4.** When the wrapper invokes the fetch and the fetch fails, the error
propagates to the caller unchanged and the closure state (timestamp and
cached value) is exactly what it was before the call: a previously cached
value is never cleared or corrupted by a failed fetch. -/
theorem fetch_failure_propagates_cache_unchanged {V E : Type}
    (min_interval now : ℚ) (e : E) (s : CacheState V)
    (hinv : (wrapperCall min_interval now (Except.error e) s).2.2 = true) :
    wrapperCall min_interval now (Except.error e) s = (.error e, s, true) :=
  wrapperCall_miss_error _ _ _ _ (miss_of_invoked _ _ _ _ hinv)

/-- Witness for `fetch_failure_propagates_cache_unchanged`: a failing fetch at
`t = 100` against a stale cache `⟨0, some 7⟩` with `min_interval = 2`. -/
theorem fetch_failure_propagates_cache_unchanged_witness :
    @wrapperCall ℚ Unit 2 100 (Except.error ()) ⟨0, some 7⟩ =
      (.error (), ⟨0, some 7⟩, true) :=
  fetch_failure_propagates_cache_unchanged 2 100 () ⟨0, some 7⟩
    (by rw [wrapperCall_miss_error 2 100 () (⟨0, some 7⟩ : CacheState ℚ)
      (fun hc => by norm_num at hc)])

/-- From a state with no cached result, every later cached (non-invoking)
return is preceded by a successful invocation of the wrapped function. -/
lemma runCalls_cached_needs_success {V E : Type} (min_interval : ℚ) :
    ∀ (trace : List (ℚ × Except E V)) (s : CacheState V), s.result = none →
    ∀ (n : ℕ) (r : Except E V),
    ((runCalls min_interval trace s).1).get? n = some (r, false) →
    ∃ m < n, ∃ v, ((runCalls min_interval trace s).1).get? m = some (.ok v, true)
  | [], s, _, n, r, hget => by simp [runCalls] at hget
  | (now, f) :: rest, s, hnone, n, r, hget => by
    have hmiss : ¬ (now - s.t < min_interval ∧ s.result.isSome) := by
      rw [hnone]
      simp
    match n with
    | 0 =>
      exfalso
      simp only [runCalls, List.get?_cons_zero, Option.some.injEq] at hget
      cases hf : f with
      | ok v =>
        rw [hf, wrapperCall_miss_ok _ _ _ _ hmiss] at hget
        simp at hget
      | error e =>
        rw [hf, wrapperCall_miss_error _ _ _ _ hmiss] at hget
        simp at hget
    | n + 1 =>
      simp only [runCalls, List.get?_cons_succ] at hget
      cases hf : f with
      | ok v =>
        refine ⟨0, Nat.succ_pos n, v, ?_⟩
        simp only [runCalls, List.get?_cons_zero, Option.some.injEq]
        rw [wrapperCall_miss_ok _ _ _ _ hmiss]
      | error e =>
        rw [hf, wrapperCall_miss_error _ _ _ _ hmiss] at hget
        obtain ⟨m, hm, v, hv⟩ :=
          runCalls_cached_needs_success min_interval rest s hnone n r hget
        refine ⟨m + 1, Nat.succ_lt_succ hm, v, ?_⟩
        simp only [runCalls, List.get?_cons_succ]
        rw [wrapperCall_miss_error _ _ _ _ hmiss]
        exact hv

/-- **C10.** A wrapper call returns a cached value only after some strictly
earlier call invoked the wrapped function and that invocation succeeded; in
particular, from any state with no stored result — so in particular the very
first call, regardless of the elapsed time against the initial timestamp
`0.0` — the wrapped function is always invoked, because the cached-result
branch additionally requires `state["result"] is not None`. -/
theorem cached_return_requires_prior_success {V E : Type}
    (min_interval t₀ : ℚ) (trace : List (ℚ × Except E V)) :
    (∀ (now : ℚ) (f : Except E V),
      (wrapperCall min_interval now f (⟨t₀, none⟩ : CacheState V)).2.2 = true) ∧
    (∀ (n : ℕ) (r : Except E V),
      ((runCalls min_interval trace (⟨t₀, none⟩ : CacheState V)).1).get? n =
        some (r, false) →
      ∃ m < n, ∃ v,
        ((runCalls min_interval trace (⟨t₀, none⟩ : CacheState V)).1).get? m =
          some (.ok v, true)) := by
  constructor
  · intro now f
    cases f with
    | ok v =>
      rw [wrapperCall_miss_ok min_interval now v (⟨t₀, none⟩ : CacheState V) (by simp)]
    | error e =>
      rw [wrapperCall_miss_error min_interval now e (⟨t₀, none⟩ : CacheState V) (by simp)]
  · exact fun n r => runCalls_cached_needs_success min_interval trace _ rfl n r

/-- Witness for `cached_return_requires_prior_success`: with
`min_interval = 2` and trace "fetch `1` at `t = 100`, call again at
`t = 101`", the second call returns cached and the first call is the
required earlier successful invocation. -/
theorem cached_return_requires_prior_success_witness :
    ∃ m < 1, ∃ v, ((runCalls 2 [((100 : ℚ), Except.ok (1 : ℚ)), (101, Except.error ())]
      (⟨0, none⟩ : CacheState ℚ)).1).get? m = some (.ok v, true) :=
  (cached_return_requires_prior_success 2 0
      [((100 : ℚ), Except.ok (1 : ℚ)), (101, Except.error ())]).2 1 (.ok 1)
    (by
      have h1 : @wrapperCall ℚ Unit 2 100 (.ok 1) ⟨0, none⟩ =
          (.ok 1, ⟨100, some 1⟩, true) :=
        wrapperCall_miss_ok _ _ _ _ (by simp)
      have h2 : @wrapperCall ℚ Unit 2 101 (.error ()) ⟨100, some 1⟩ =
          (.ok 1, ⟨100, some 1⟩, false) :=
        wrapperCall_hit _ _ _ _ _ (by norm_num)
      simp [runCalls, h1, h2])

end OrderbookAggregator
